import Mathlib

/-!
Verification of the chunk-orchestration and parallel-extraction pipeline of
`llms-generator` (src/llms_generator).

The Python modules `chunker.py`, `extractor.py`, `sitemap.py` and `main.py` are
shallowly embedded below.  External collaborators (HTTP fetching, HTML parsing,
sitemap XML retrieval, glob matching) are abstracted as function parameters, as
the spec treats them as opaque interfaces; everything the claims quantify over
(filtering, deduplication, sorting, slicing, batching, result placement,
merging) is translated operation by operation from the source.

Python-specific semantics (negative slice bounds, `range` with arbitrary step,
`str.split`/`strip` at the character level, exceptions as `Except`) are modelled
explicitly.  String-classification primitives (`isalpha`, `upper`, whitespace)
are modelled at ASCII granularity, which covers the code's behaviour on ASCII
input; the concrete inputs used below are all ASCII.
-/

/-! ### Python primitives -/

/-- Python slice `l[:m]`: a nonnegative bound takes the first `m` elements, a
negative bound drops the last `-m` elements (clamped at zero). -/
def pythonTake {α : Type} (m : Int) (l : List α) : List α :=
  if 0 ≤ m then l.take m.toNat else l.take (l.length - (-m).toNat)

/-- Python `range(start, stop, step)` as the list it iterates over.
`step = 0` raises `ValueError`; otherwise the length is
`max 0 (ceil((stop-start)/step))` and element `i` is `start + i*step`. -/
def pythonRange (start stop step : Int) : Except String (List Int) :=
  if step = 0 then .error "range() arg 3 must not be zero"
  else if 0 < step then
    .ok ((List.range (max ((stop - start + step - 1) / step) 0).toNat).map
      fun (i : Nat) => start + (i : Int) * step)
  else
    .ok ((List.range (max ((start - stop + (-step) - 1) / (-step)) 0).toNat).map
      fun (i : Nat) => start + (i : Int) * step)

/-- Python `text.split(sep)` for a one-character separator, at the character
level (empty pieces are preserved, as in Python). -/
def pySplit (s : String) (sep : Char) : List String :=
  (s.data.splitOn sep).map String.mk

/-- Python `str.strip()` restricted to ASCII whitespace. -/
def pyStrip (s : String) : String :=
  String.mk (((s.data.dropWhile Char.isWhitespace).reverse.dropWhile
    Char.isWhitespace).reverse)

/-- Python `str.rstrip("/")`: drop every trailing `'/'`. -/
def pyRstripSlash (s : String) : String :=
  String.mk ((s.data.reverse.dropWhile (· == '/')).reverse)

/-- Lexicographic comparison of character lists by code point: the order Python
uses to compare (and hence `sorted`) strings. -/
def charListLe : List Char → List Char → Bool
  | [], _ => true
  | _ :: _, [] => false
  | a :: as, b :: bs => if a = b then charListLe as bs else decide (a < b)

/-- Python string `<=`, used by `sorted` on URLs. -/
def pyStrLe (a b : String) : Bool := charListLe a.data b.data

/-! ### `urllib.parse.urlparse`, restricted to the absolute http(s) URLs that
`fetcher.extract_links` produces (it only keeps URLs starting with
`http://` or `https://`). -/

/-- Locate the `"://"` scheme separator and return what follows it. -/
def findSchemeSep : List Char → Option (List Char)
  | ':' :: '/' :: '/' :: rest => some rest
  | _ :: rest => findSchemeSep rest
  | [] => none

/-- `urlparse(u).netloc`: the authority component, ending at the first
`'/'`, `'?'` or `'#'` after the scheme separator. -/
def urlparse_netloc (u : String) : String :=
  match findSchemeSep u.data with
  | some rest => String.mk (rest.takeWhile fun c => c != '/' && c != '?' && c != '#')
  | none => ""

/-- `urlparse(u).path`: what follows the authority, up to `'?'` or `'#'`. -/
def urlparse_path (u : String) : String :=
  match findSchemeSep u.data with
  | some rest =>
      String.mk ((rest.dropWhile fun c => c != '/' && c != '?' && c != '#').takeWhile
        fun c => c != '?' && c != '#')
  | none => String.mk (u.data.takeWhile fun c => c != '?' && c != '#')

/-! ### Data model (`chunker.Chunk`) -/

/-- A metadata value: the `Chunk.metadata` dicts in `chunker.py` hold strings
and ints. -/
inductive MetaValue where
  | s (v : String)
  | n (v : Nat)
deriving DecidableEq, Repr

/-- `chunker.Chunk`: one independently processable unit of content.  The
Python `dict` metadata is modelled as an association list. -/
structure Chunk where
  id : String
  url : String
  content : String
  metadata : List (String × MetaValue)
deriving DecidableEq, Repr

/-! ### Sitemap collaborator (`sitemap.py`) -/

/-- A parsed sitemap XML document.  `subs` are the documents referenced by
`.//sitemap/loc` entries (with URL resolution baked into the tree, since
`parse_sitemap` re-fetches each referenced location), `urls` are the
`.//url/loc` entries. -/
inductive Sitemap where
  | mk (subs : List Sitemap) (urls : List String)

/-- The sub-sitemaps referenced by a document. -/
def Sitemap.subs : Sitemap → List Sitemap
  | .mk subs _ => subs

/-- The page URLs listed directly in a document. -/
def Sitemap.urls : Sitemap → List String
  | .mk _ urls => urls

mutual

/-- `sitemap.parse_sitemap`: if the document references other sitemaps it is a
sitemap index and every referenced sitemap is parsed recursively, the URL lists
being concatenated in document order; otherwise the document's own URL list is
returned. -/
def parse_sitemap : Sitemap → List String
  | .mk subs urls => if subs.isEmpty then urls else parse_sitemap_list subs

/-- The `all_urls.extend(parse_sitemap(loc.text))` loop of `parse_sitemap`. -/
def parse_sitemap_list : List Sitemap → List String
  | [] => []
  | s :: rest => parse_sitemap s ++ parse_sitemap_list rest

end

/-- `sitemap.filter_urls`: include patterns (pipe-separated, OR-of-globs)
applied first, then exclude patterns.  `fnm` abstracts `fnmatch.fnmatch`;
absent patterns (Python `None` or `""`, both falsy) are `none`. -/
def filter_urls (urls : List String) (include_pattern exclude_pattern : Option String)
    (fnm : String → String → Bool) : List String :=
  let result := urls
  let result := match include_pattern with
    | some ip =>
        let pats := (pySplit ip '|').map pyStrip
        result.filter fun u => pats.any fun p => fnm u p
    | none => result
  match exclude_pattern with
  | some ep =>
      let pats := (pySplit ep '|').map pyStrip
      result.filter fun u => !(pats.any fun p => fnm u p)
  | none => result

/-! ### External-collaborator environment

`fetch` models `fetcher.fetch_page` restricted to the extracted text (the only
component the chunking loops use for sub-pages); `none` models a raised
exception.  `pagination_links` models the BeautifulSoup scan of
`chunk_paginated` (pagination selectors, `"page" in href` / trailing-number
check, `urljoin`): it returns the candidate absolute URLs found in the given
markup.  `links_in` models `fetcher.extract_links` (href extraction under an
optional CSS selector, `urljoin`, http(s) filter, order-preserving dedup).
`sitemap` resolves a sitemap URL to its parsed XML document.  `fnm` models
`fnmatch.fnmatch`. -/
structure Env where
  fetch : String → Option String
  pagination_links : String → String → List String
  links_in : String → Option String → String → List String
  sitemap : String → Sitemap
  fnm : String → String → Bool

/-! ### Chunking strategies (`chunker.py`) -/

/-- `chunker.chunk_single`: the whole page as one chunk. -/
def chunk_single (html text source_id url : String) : List Chunk :=
  [⟨source_id ++ "_full", url, text, [("type", .s "single")]⟩]

/-- The `page_urls` set of `chunk_paginated`: candidate URLs distinct from the
root URL, with set semantics modelled by order-preserving deduplication (the
set is only consumed through `sorted`, which erases iteration order). -/
def paginated_page_urls (raw : List String) (url : String) : List String :=
  (raw.filter fun l => l ≠ url).dedup

/-- `chunker.chunk_paginated`: the root page is chunk 1; discovered pagination
URLs are deduplicated, sorted, sliced by `[:chunk_size - 1]` and fetched in
that order with numbering starting at 2; a failed fetch is skipped. -/
def chunk_paginated (html text source_id url : String) (chunk_size : Int)
    (env : Env) : List Chunk :=
  let root : Chunk := ⟨source_id ++ "_page1", url, text,
    [("type", .s "paginated"), ("page", .n 1)]⟩
  let page_urls := paginated_page_urls (env.pagination_links html url) url
  let subs := (List.enumFrom 2
      (pythonTake (chunk_size - 1) (page_urls.mergeSort pyStrLe))).filterMap
    fun p => (env.fetch p.2).map fun page_text =>
      (⟨source_id ++ "_page" ++ toString p.1, p.2, page_text,
        [("type", .s "paginated"), ("page", .n p.1)]⟩ : Chunk)
  root :: subs

/-- The mid-loop `letter_range` expression of `chunk_alphabetical`:
`f"{letters[0]}-{letters[-1]}" if len(letters) > 1 else letters[0]` — the
`letters[0]` access raises `IndexError` on an empty list. -/
def mid_letter_range : List Char → Except String String
  | [] => .error "IndexError: list index out of range"
  | [c] => .ok (String.mk [c])
  | c :: cs => .ok (String.mk [c] ++ "-" ++ String.mk [cs.getLastD c])

/-- The final-chunk `letter_range` expression of `chunk_alphabetical`, which
falls back to `"misc"` on an empty letter list. -/
def final_letter_range : List Char → String
  | [] => "misc"
  | [c] => String.mk [c]
  | c :: cs => String.mk [c] ++ "-" ++ String.mk [cs.getLastD c]

/-- The line loop of `chunk_alphabetical`: state is (already-saved chunks,
current chunk's lines, current chunk's leading letters in first-seen order,
item count).  A save is triggered by a line whose first character is
alphabetic when the open chunk already holds `chunk_size` items. -/
def alpha_go (source_id url : String) (chunk_size : Int) :
    List String → List Chunk → List String → List Char → Nat →
    Except String (List Chunk)
  | [], acc, cur, letters, _ =>
      if cur.isEmpty then .ok acc
      else .ok (acc ++ [⟨source_id ++ "_" ++ final_letter_range letters, url,
        String.intercalate "\n" cur,
        [("type", .s "alphabetical"), ("letters", .s (final_letter_range letters))]⟩])
  | line :: rest, acc, cur, letters, items =>
      let line := pyStrip line
      if line = "" then alpha_go source_id url chunk_size rest acc cur letters items
      else
        let first_char := (line.data.headD ' ').toUpper
        if first_char.isAlpha then
          if chunk_size ≤ (items : Int) ∧ cur ≠ [] then
            match mid_letter_range letters with
            | .error e => .error e
            | .ok lr =>
                alpha_go source_id url chunk_size rest
                  (acc ++ [⟨source_id ++ "_" ++ lr, url, String.intercalate "\n" cur,
                    [("type", .s "alphabetical"), ("letters", .s lr)]⟩])
                  [line] [first_char] 1
          else
            let letters := if first_char ∈ letters then letters
              else letters ++ [first_char]
            alpha_go source_id url chunk_size rest acc (cur ++ [line]) letters (items + 1)
        else
          alpha_go source_id url chunk_size rest acc (cur ++ [line]) letters (items + 1)

/-- `chunker.chunk_alphabetical`: split the text into lines, group consecutive
non-blank lines, and fall back to the single-chunk strategy when no chunk was
produced.  The mid-loop `letters[0]` access can raise, hence `Except`. -/
def chunk_alphabetical (html text source_id url : String) (chunk_size : Int) :
    Except String (List Chunk) :=
  match alpha_go source_id url chunk_size (pySplit text '\n') [] [] [] 0 with
  | .error e => .error e
  | .ok [] => .ok (chunk_single html text source_id url)
  | .ok cs => .ok cs

/-- The `internal_links` computation of `chunk_recursive`: same-host links
distinct from the root URL; then glob filtering when patterns are supplied,
a same-or-sub-path restriction when neither patterns nor a content selector
are present, and no further filtering when a content selector is set. -/
def recursive_internal_links (links : List String) (url : String)
    (include_pattern exclude_pattern content_selector : Option String)
    (fnm : String → String → Bool) : List String :=
  let base_domain := urlparse_netloc url
  let base_path := pyRstripSlash (urlparse_path url)
  let internal := links.filter fun l => urlparse_netloc l == base_domain && l != url
  if include_pattern.isSome || exclude_pattern.isSome then
    filter_urls internal include_pattern exclude_pattern fnm
  else if content_selector.isNone then
    internal.filter fun l =>
      (base_path ++ "/").data.isPrefixOf (urlparse_path l).data
        || urlparse_path l == base_path
  else internal

/-- The sub-page fetch loop of `chunk_recursive`: `cnt` is `len(chunks)` at
append time (starting at 1 for the root chunk) and advances only on a
successful fetch. -/
def chunk_recursive_go (source_id : String) (fetch : String → Option String) :
    List String → Nat → List Chunk
  | [], _ => []
  | link :: rest, cnt =>
      match fetch link with
      | some sub_text =>
          ⟨source_id ++ "_" ++ toString cnt, link, sub_text,
            [("type", .s "recursive"), ("depth", .n 1)]⟩ ::
            chunk_recursive_go source_id fetch rest (cnt + 1)
      | none => chunk_recursive_go source_id fetch rest cnt

/-- `chunker.chunk_recursive`: root chunk at depth 0, then up to
`chunk_size - 1` of the filtered internal links fetched in discovered order;
a failed fetch is skipped.  Only one level is expanded. -/
def chunk_recursive (html text source_id url : String) (chunk_size max_depth : Int)
    (content_selector include_pattern exclude_pattern : Option String)
    (env : Env) : List Chunk :=
  let chunks : List Chunk := [⟨source_id ++ "_root", url, text,
    [("type", .s "recursive"), ("depth", .n 0)]⟩]
  if max_depth < 1 then chunks
  else
    let links := env.links_in html content_selector url
    let internal_links := recursive_internal_links links url include_pattern
      exclude_pattern content_selector env.fnm
    chunks ++ chunk_recursive_go source_id env.fetch
      (pythonTake (chunk_size - 1) internal_links) 1

/-- `chunker.chunk_sitemap`: parse the sitemap, filter, truncate only for a
positive `chunk_size`, then fetch every remaining URL in list order with
per-URL failures skipped (`enumerate` indices advance regardless). -/
def chunk_sitemap (sitemap_url source_id : String) (chunk_size : Int)
    (include_pattern exclude_pattern content_selector : Option String)
    (env : Env) : List Chunk :=
  let urls := parse_sitemap (env.sitemap sitemap_url)
  let urls := filter_urls urls include_pattern exclude_pattern env.fnm
  let urls := if 0 < chunk_size then pythonTake chunk_size urls else urls
  urls.enum.filterMap fun p => (env.fetch p.2).map fun page_text =>
    (⟨source_id ++ "_" ++ toString p.1, p.2, page_text,
      [("type", .s "sitemap"), ("index", .n p.1)]⟩ : Chunk)

/-- `chunker.create_chunks`: string dispatch over the strategy name, with the
single-chunk strategy as the fallback for an unrecognized name.
`chunk_recursive` is called without `max_depth`, so the default 2 applies.
Only the alphabetical branch can raise, hence `Except`. -/
def create_chunks (html text source_id url chunk_method : String) (chunk_size : Int)
    (include_pattern exclude_pattern content_selector : Option String)
    (env : Env) : Except String (List Chunk) :=
  if chunk_method = "single" then .ok (chunk_single html text source_id url)
  else if chunk_method = "paginated" then
    .ok (chunk_paginated html text source_id url chunk_size env)
  else if chunk_method = "alphabetical" then
    chunk_alphabetical html text source_id url chunk_size
  else if chunk_method = "recursive" then
    .ok (chunk_recursive html text source_id url chunk_size 2 content_selector
      include_pattern exclude_pattern env)
  else if chunk_method = "sitemap" then
    .ok (chunk_sitemap url source_id chunk_size include_pattern exclude_pattern
      content_selector env)
  else .ok (chunk_single html text source_id url)

/-! ### Merge (`extractor.merge_extractions`) -/

/-- `extractor.merge_extractions`: a single result is returned unchanged;
otherwise each result is prefixed with a separator tag carrying the source id
and its positional index, and the sections are joined by a blank line. -/
def merge_extractions (extractions : List String) (source_id : String) : String :=
  match extractions with
  | [x] => x
  | xs => String.intercalate "\n\n" (xs.enum.map fun p =>
      "<|llms-section-" ++ source_id ++ "-" ++ toString p.1 ++ "|>\n" ++ p.2)

/-- The merge format as the spec words it: section `i` is the separator tag for
index `i`, a newline, then result `i`, sections taken in input order. -/
def tagged_sections (source_id : String) : Nat → List String → List String
  | _, [] => []
  | i, x :: rest =>
      ("<|llms-section-" ++ source_id ++ "-" ++ toString i ++ "|>\n" ++ x) ::
        tagged_sections source_id (i + 1) rest

/-! ### Parallel extraction coordinator (`main.process_chunks_parallel`)

The outcome of the extraction call for chunk `i` is abstracted as
`extract i : Except String String` — `extract_with_ai` applied to chunk `i`'s
content either returns a string or raises (its retry/backoff logic is internal
to the call).  `perm` models `as_completed`: the order in which the futures of
one batch complete, an arbitrary permutation of the submitted batch. -/

/-- The `try/except` around `future.result()`: a raised exception becomes the
inline error-marker result. -/
def render_result : Except String String → String
  | .ok s => s
  | .error e => "# Error\n\nFailed to extract: " ++ e

/-- One batch: each completed future writes its result into the slot of its
original index (`results[idx] = ...`), in completion order. -/
def run_batch (extract : Nat → Except String String) (order : List Nat)
    (results : List (Option String)) : List (Option String) :=
  order.foldl (fun res idx => res.set idx (some (render_result (extract idx)))) results

/-- The indices `range(batch_start, batch_end)` of one batch. -/
def batch_indices (batch_start batch_end : Nat) : List Nat :=
  (List.range (batch_end - batch_start)).map fun i => batch_start + i

/-- The batch loop: for each `batch_start`, process the batch
`[batch_start, min(batch_start + batch_size, n))` and sleep once afterwards
when chunks remain.  The second component counts the inter-batch delays. -/
def run_batches (n : Nat) (batch_size : Int) (extract : Nat → Except String String)
    (perm : List Nat → List Nat) :
    List Int → List (Option String) × Nat → List (Option String) × Nat
  | [], acc => acc
  | s :: rest, (results, delays) =>
      let batch_end : Int := min (s + batch_size) (n : Int)
      let idxs := batch_indices s.toNat batch_end.toNat
      let results := run_batch extract (perm idxs) results
      let delays := if batch_end < (n : Int) then delays + 1 else delays
      run_batches n batch_size extract perm rest (results, delays)

/-- `main.process_chunks_parallel`: `results = [None] * len(chunks)`, then the
batch loop over `range(0, len(chunks), batch_size)`.  Returns the results list
together with the number of inter-batch pacing delays performed. -/
def process_chunks_parallel (chunks : List Chunk)
    (extract : Nat → Except String String) (batch_size : Int)
    (perm : List Nat → List Nat) :
    Except String (List (Option String) × Nat) := do
  let starts ← pythonRange 0 chunks.length batch_size
  pure (run_batches chunks.length batch_size extract perm starts
    (List.replicate chunks.length none, 0))

/-! ### Decimal representation of `Nat`

`Chunk` ids embed `toString` of indices; the uniqueness arguments below need
that this decimal representation is injective and consists of digit
characters.  `decDigits` is a fuel-free reformulation of `Nat.toDigits 10`. -/

/-- The decimal digit characters of `n`, most significant first. -/
def decDigits (n : Nat) : List Char :=
  if n < 10 then [Nat.digitChar n]
  else decDigits (n / 10) ++ [Nat.digitChar (n % 10)]
decreasing_by exact Nat.div_lt_self (by omega) (by omega)

/-- The batch partition described by the spec: consecutive index blocks of
width `b` (the last possibly shorter), one per `batch_start` of
`range(0, n, b)`. -/
def coordinator_batches (n b : Nat) : List (List Nat) :=
  (List.range ((n + b - 1) / b)).map fun k => batch_indices (k * b) (min ((k + 1) * b) n)

/-- The grouping rule of the amended alphabetical claim, as a function of the
line list alone: a new group starts exactly at a non-blank line whose first
character is alphabetic when the open group already holds `chunk_size` items —
whether or not that letter was seen in the open group. -/
def alpha_groups_go (chunk_size : Int) :
    List String → List (List String) → List String → Nat → List (List String)
  | [], acc, cur, _ => if cur.isEmpty then acc else acc ++ [cur]
  | line :: rest, acc, cur, items =>
      let line := pyStrip line
      if line = "" then alpha_groups_go chunk_size rest acc cur items
      else if (line.data.headD ' ').toUpper.isAlpha ∧ chunk_size ≤ (items : Int) ∧ cur ≠ []
      then alpha_groups_go chunk_size rest (acc ++ [cur]) [line] 1
      else alpha_groups_go chunk_size rest acc (cur ++ [line]) (items + 1)

/-- The line groups of the amended alphabetical claim for a whole text. -/
def alpha_groups (text : String) (chunk_size : Int) : List (List String) :=
  alpha_groups_go chunk_size (pySplit text '\n') [] [] 0

/-! ### Concrete instances used by witnesses and counterexamples -/

/-- An environment whose fetches all succeed and whose discovery functions are
empty; fields are overridden per instance below. -/
def wEnv : Env :=
  ⟨fun _ => some "T", fun _ _ => [], fun _ _ _ => [], fun _ => .mk [] [], fun _ _ => false⟩

/-- A concrete chunk. -/
def wChunk : Chunk := ⟨"s_full", "u", "body", [("type", .s "single")]⟩

/-- Seven concrete chunks: the spec's end-to-end batching scenario. -/
def wChunks7 : List Chunk := List.replicate 7 wChunk

/-- Extraction outcomes where call 0 raises and every other call succeeds. -/
def wExtractF : Nat → Except String String :=
  fun j => if j = 0 then .error "boom" else .ok "ok"

/-- Extraction outcomes where every call succeeds. -/
def wExtractG : Nat → Except String String := fun _ => .ok "ok"

/-- An environment that discovers exactly one pagination link. -/
def pagEnv : Env := { wEnv with pagination_links := fun _ _ => ["http://e/2/"] }

/-- An environment whose page markup links to a same-host URL outside the root
path and to a same-host URL under it. -/
def recEnv : Env :=
  { wEnv with links_in := fun _ _ _ => ["http://h/b/x", "http://h/a/y"] }

/-- An environment whose sitemap is an index of two sub-sitemaps sharing the
URL `"u"`. -/
def siteEnv : Env :=
  { wEnv with sitemap := fun _ => .mk [.mk [] ["u", "v"], .mk [] ["u"]] [] }

/-! ### Helper lemmas -/

theorem decDigits_ne_nil (n : Nat) : decDigits n ≠ [] := by
  rw [decDigits]
  split <;> simp

theorem toDigitsCore_eq_decDigits :
    ∀ fuel n ds, n < fuel → Nat.toDigitsCore 10 fuel n ds = decDigits n ++ ds := by
  intro fuel
  induction fuel with
  | zero => omega
  | succ f ih =>
      intro n ds hn
      rw [Nat.toDigitsCore, decDigits]
      by_cases h10 : n < 10
      · have hdiv : n / 10 = 0 := Nat.div_eq_of_lt h10
        have hmod : n % 10 = n := Nat.mod_eq_of_lt h10
        simp [hdiv, hmod, h10]
      · have hdiv : n / 10 ≠ 0 := by
          intro h
          exact h10 (by omega : n < 10)
        have hlt : n / 10 < f := by
          have h1 : n / 10 < n := Nat.div_lt_self (by omega) (by omega)
          omega
        simp only [hdiv, if_false, h10, ih (n / 10) _ hlt]
        simp

theorem natRepr_eq_decDigits (n : Nat) : Nat.repr n = String.mk (decDigits n) := by
  have h := toDigitsCore_eq_decDigits (n + 1) n [] (by omega)
  simp only [Nat.repr, Nat.toDigits, h, List.append_nil, List.asString]

theorem natToString_eq_decDigits (n : Nat) : toString n = String.mk (decDigits n) :=
  natRepr_eq_decDigits n

theorem digitChar_inj_lt : ∀ a < 10, ∀ b < 10,
    Nat.digitChar a = Nat.digitChar b → a = b := by decide

theorem digitChar_isDigit : ∀ a < 10, (Nat.digitChar a).isDigit = true := by decide

theorem decDigits_lt {n : Nat} (h : n < 10) : decDigits n = [Nat.digitChar n] := by
  rw [decDigits, if_pos h]

theorem decDigits_ge {n : Nat} (h : ¬ n < 10) :
    decDigits n = decDigits (n / 10) ++ [Nat.digitChar (n % 10)] := by
  rw [decDigits, if_neg h]

theorem decDigits_inj : ∀ m n : Nat, decDigits m = decDigits n → m = n := by
  intro m
  induction m using Nat.strong_induction_on with
  | _ m ih =>
      intro n h
      by_cases hm : m < 10 <;> by_cases hn : n < 10
      · rw [decDigits_lt hm, decDigits_lt hn] at h
        simp only [List.cons.injEq, and_true] at h
        exact digitChar_inj_lt m hm n hn h
      · rw [decDigits_lt hm, decDigits_ge hn] at h
        rcases List.exists_cons_of_ne_nil (decDigits_ne_nil (n / 10)) with ⟨c, cs, hcs⟩
        rw [hcs] at h
        simp at h
      · rw [decDigits_ge hm, decDigits_lt hn] at h
        rcases List.exists_cons_of_ne_nil (decDigits_ne_nil (m / 10)) with ⟨c, cs, hcs⟩
        rw [hcs] at h
        simp at h
      · rw [decDigits_ge hm, decDigits_ge hn] at h
        have h' := congrArg List.reverse h
        simp only [List.reverse_append, List.reverse_cons, List.reverse_nil,
          List.nil_append, List.cons_append, List.cons.injEq] at h'
        obtain ⟨hch, hrev⟩ := h'
        have htail : decDigits (m / 10) = decDigits (n / 10) :=
          List.reverse_inj.mp hrev
        have hdiv : m / 10 = n / 10 :=
          ih (m / 10) (Nat.div_lt_self (by omega) (by omega)) (n / 10) htail
        have hmod : m % 10 = n % 10 :=
          digitChar_inj_lt _ (Nat.mod_lt _ (by omega)) _ (Nat.mod_lt _ (by omega)) hch
        have h1 := Nat.div_add_mod m 10
        have h2 := Nat.div_add_mod n 10
        omega

theorem decDigits_isDigit : ∀ n : Nat, ∀ c ∈ decDigits n, c.isDigit = true := by
  intro n
  induction n using Nat.strong_induction_on with
  | _ n ih =>
      intro c hc
      by_cases hn : n < 10
      · rw [decDigits_lt hn] at hc
        simp at hc
        exact hc ▸ digitChar_isDigit n hn
      · rw [decDigits_ge hn] at hc
        rcases List.mem_append.mp hc with h | h
        · exact ih (n / 10) (Nat.div_lt_self (by omega) (by omega)) c h
        · simp at h
          exact h ▸ digitChar_isDigit _ (Nat.mod_lt _ (by omega))

theorem natToString_inj {m n : Nat} (h : toString m = toString n) : m = n := by
  rw [natToString_eq_decDigits, natToString_eq_decDigits] at h
  exact decDigits_inj m n (congrArg String.data h)

theorem natToString_isDigit (n : Nat) : ∀ c ∈ (toString n).data, c.isDigit = true := by
  rw [natToString_eq_decDigits]
  exact decDigits_isDigit n

theorem string_append_cancel_left {s a b : String} (h : s ++ a = s ++ b) : a = b := by
  have hd := congrArg String.data h
  rw [String.data_append, String.data_append] at hd
  exact String.ext (List.append_cancel_left hd)

theorem natToString_ne_root (n : Nat) : toString n ≠ "root" := by
  intro h
  have : ('r' : Char).isDigit = true := by
    apply natToString_isDigit n
    rw [h]
    decide
  exact absurd this (by decide)

theorem natToString_ne_full (n : Nat) : toString n ≠ "full" := by
  intro h
  have : ('f' : Char).isDigit = true := by
    apply natToString_isDigit n
    rw [h]
    decide
  exact absurd this (by decide)

theorem charListLe_trans : ∀ a b c : List Char,
    charListLe a b = true → charListLe b c = true → charListLe a c = true := by
  intro a
  induction a with
  | nil => intro b c _ _; simp [charListLe]
  | cons x xs ih =>
      intro b c hab hbc
      cases b with
      | nil => simp [charListLe] at hab
      | cons y ys =>
          cases c with
          | nil => simp [charListLe] at hbc
          | cons z zs =>
              simp only [charListLe] at hab hbc ⊢
              by_cases hxy : x = y <;> by_cases hyz : y = z
              · subst hxy; subst hyz
                rw [if_pos rfl] at hab hbc ⊢
                exact ih ys zs hab hbc
              · subst hxy
                rw [if_pos rfl] at hab
                rw [if_neg hyz] at hbc
                rw [if_neg hyz]
                exact hbc
              · subst hyz
                rw [if_neg hxy] at hab ⊢
                exact hab
              · rw [if_neg hxy] at hab
                rw [if_neg hyz] at hbc
                have h1 : x < y := of_decide_eq_true hab
                have h2 : y < z := of_decide_eq_true hbc
                have hxz : x < z := lt_trans h1 h2
                rw [if_neg (ne_of_lt hxz)]
                exact decide_eq_true hxz

theorem charListLe_total : ∀ a b : List Char, (charListLe a b || charListLe b a) = true := by
  intro a
  induction a with
  | nil => intro b; simp [charListLe]
  | cons x xs ih =>
      intro b
      cases b with
      | nil => simp [charListLe]
      | cons y ys =>
          simp only [charListLe]
          by_cases hxy : x = y
          · subst hxy
            rw [if_pos rfl, if_pos rfl]
            exact ih ys
          · have hyx : y ≠ x := fun h => hxy h.symm
            rw [if_neg hxy, if_neg hyx]
            rcases lt_or_gt_of_ne hxy with h | h
            · simp [decide_eq_true h]
            · simp [decide_eq_true h]

theorem pyStrLe_trans (a b c : String) (h1 : pyStrLe a b = true) (h2 : pyStrLe b c = true) :
    pyStrLe a c = true :=
  charListLe_trans a.data b.data c.data h1 h2

theorem pyStrLe_total (a b : String) : (pyStrLe a b || pyStrLe b a) = true :=
  charListLe_total a.data b.data

theorem enumFrom_map_tagged (sid : String) :
    ∀ (xs : List String) (i : Nat),
      (List.enumFrom i xs).map
          (fun p => "<|llms-section-" ++ sid ++ "-" ++ toString p.1 ++ "|>\n" ++ p.2) =
        tagged_sections sid i xs := by
  intro xs
  induction xs with
  | nil => intro i; rfl
  | cons x rest ih =>
      intro i
      simp only [List.enumFrom, List.map, tagged_sections]
      rw [ih (i + 1)]

theorem run_batch_cons (extract : Nat → Except String String) (a : Nat) (rest : List Nat)
    (results : List (Option String)) :
    run_batch extract (a :: rest) results =
      run_batch extract rest (results.set a (some (render_result (extract a)))) := rfl

theorem run_batch_length (extract : Nat → Except String String) :
    ∀ (order : List Nat) (results : List (Option String)),
      (run_batch extract order results).length = results.length := by
  intro order
  induction order with
  | nil => intro results; rfl
  | cons a rest ih =>
      intro results
      rw [run_batch_cons, ih, List.length_set]

theorem run_batch_getElem? (extract : Nat → Except String String) :
    ∀ (order : List Nat) (results : List (Option String)) (j : Nat),
      (run_batch extract order results)[j]? =
        if j ∈ order ∧ j < results.length
        then some (some (render_result (extract j)))
        else results[j]? := by
  intro order
  induction order with
  | nil => intro results j; simp [run_batch]
  | cons a rest ih =>
      intro results j
      rw [run_batch_cons, ih, List.length_set]
      by_cases hlt : j < results.length
      · by_cases hmem : j ∈ rest
        · rw [if_pos ⟨hmem, hlt⟩, if_pos ⟨List.mem_cons_of_mem a hmem, hlt⟩]
        · rw [if_neg (fun h => hmem h.1), List.getElem?_set]
          by_cases haj : a = j
          · subst haj
            rw [if_pos rfl, if_pos hlt, if_pos ⟨List.mem_cons_self a rest, hlt⟩]
          · rw [if_neg haj,
              if_neg (fun h => (List.mem_cons.mp h.1).elim (fun he => haj he.symm) hmem)]
      · rw [if_neg (fun h => hlt h.2), if_neg (fun h => hlt h.2), List.getElem?_set]
        by_cases haj : a = j
        · subst haj
          rw [if_pos rfl, if_neg hlt, List.getElem?_eq_none (by omega)]
        · rw [if_neg haj]

theorem run_batches_fst_length (n : Nat) (batch_size : Int)
    (extract : Nat → Except String String) (perm : List Nat → List Nat) :
    ∀ (starts : List Int) (results : List (Option String)) (delays : Nat),
      (run_batches n batch_size extract perm starts (results, delays)).1.length =
        results.length := by
  intro starts
  induction starts with
  | nil => intro results delays; rfl
  | cons s rest ih =>
      intro results delays
      rw [run_batches, ih, run_batch_length]

theorem run_batches_fst_getElem? (n : Nat) (batch_size : Int)
    (extract : Nat → Except String String) (perm : List Nat → List Nat)
    (hperm : ∀ l, (perm l).Perm l) :
    ∀ (starts : List Int) (results : List (Option String)) (delays : Nat) (j : Nat),
      results.length = n →
      (run_batches n batch_size extract perm starts (results, delays)).1[j]? =
        if j ∈ starts.flatMap
              (fun s => batch_indices s.toNat (min (s + batch_size) (n : Int)).toNat) ∧
            j < n
        then some (some (render_result (extract j)))
        else results[j]? := by
  intro starts
  induction starts with
  | nil => intro results delays j hres; simp [run_batches]
  | cons s rest ih =>
      intro results delays j hres
      rw [run_batches]
      have hlen : (run_batch extract
          (perm (batch_indices s.toNat (min (s + batch_size) (n : Int)).toNat))
          results).length = n := by rw [run_batch_length]; exact hres
      rw [ih _ _ _ hlen, run_batch_getElem?]
      rw [hres]
      by_cases hj : j < n
      · by_cases hrest : j ∈ rest.flatMap
            (fun s => batch_indices s.toNat (min (s + batch_size) (n : Int)).toNat)
        · rw [if_pos ⟨hrest, hj⟩,
            if_pos ⟨by simp only [List.flatMap_cons, List.mem_append]; exact Or.inr hrest, hj⟩]
        · rw [if_neg (fun h => hrest h.1)]
          by_cases hbatch : j ∈ batch_indices s.toNat (min (s + batch_size) (n : Int)).toNat
          · rw [if_pos ⟨((hperm _).mem_iff).mpr hbatch, hj⟩,
              if_pos ⟨by simp only [List.flatMap_cons, List.mem_append]; exact Or.inl hbatch, hj⟩]
          · rw [if_neg (fun h => hbatch (((hperm _).mem_iff).mp h.1)),
              if_neg (fun h => by
                rcases List.mem_append.mp (by
                  simpa only [List.flatMap_cons] using h.1) with hx | hx
                · exact hbatch hx
                · exact hrest hx)]
      · rw [if_neg (fun h => hj h.2), if_neg (fun h => hj h.2),
          if_neg (fun h => hj h.2)]

theorem run_batches_snd (n : Nat) (batch_size : Int)
    (extract : Nat → Except String String) (perm : List Nat → List Nat) :
    ∀ (starts : List Int) (results : List (Option String)) (delays : Nat),
      (run_batches n batch_size extract perm starts (results, delays)).2 =
        delays + (starts.filter
          (fun s => decide (min (s + batch_size) (n : Int) < (n : Int)))).length := by
  intro starts
  induction starts with
  | nil => intro results delays; simp [run_batches]
  | cons s rest ih =>
      intro results delays
      rw [run_batches, ih]
      by_cases hc : min (s + batch_size) (n : Int) < (n : Int)
      · rw [if_pos hc]
        simp only [List.filter_cons, decide_eq_true hc, if_true, List.length_cons]
        omega
      · rw [if_neg hc]
        simp only [List.filter_cons, decide_eq_false hc, Bool.false_eq_true, if_false]

theorem pythonRange_pos (n : Nat) (b : Int) (hb : 1 ≤ b) :
    pythonRange 0 n b = .ok ((List.range ((n + b.toNat - 1) / b.toNat)).map
      fun k => ((k * b.toNat : Nat) : Int)) := by
  obtain ⟨bn, rfl⟩ : ∃ bn : Nat, (bn : Int) = b := ⟨b.toNat, Int.toNat_of_nonneg (by omega)⟩
  have hbn : 1 ≤ bn := by exact_mod_cast hb
  rw [pythonRange, if_neg (by omega), if_pos (by omega)]
  have hnum : (n : Int) - 0 + (bn : Int) - 1 = ((n + bn - 1 : Nat) : Int) := by omega
  rw [hnum, ← Int.natCast_div]
  have hmax : max ((((n + bn - 1) / bn : Nat)) : Int) 0 = (((n + bn - 1) / bn : Nat) : Int) :=
    max_eq_left (Int.natCast_nonneg _)
  rw [hmax, Int.toNat_natCast]
  simp only [Int.toNat_natCast]
  refine congrArg Except.ok (List.map_congr_left fun i _ => ?_)
  push_cast
  ring

theorem ceil_mul_ge (n bn : Nat) (hb : 1 ≤ bn) : n ≤ ((n + bn - 1) / bn) * bn := by
  have h1 := Nat.div_add_mod (n + bn - 1) bn
  have h2 : (n + bn - 1) % bn < bn := Nat.mod_lt _ (by omega)
  rw [Nat.mul_comm]
  generalize hq : bn * ((n + bn - 1) / bn) = q at h1 ⊢
  generalize hr : (n + bn - 1) % bn = r at h1 h2
  omega

theorem ceil_pred_mul_lt (n bn : Nat) (hb : 1 ≤ bn) (hn : 1 ≤ n) :
    (((n + bn - 1) / bn) - 1) * bn < n := by
  have h1 := Nat.div_add_mod (n + bn - 1) bn
  have h2 : (n + bn - 1) % bn < bn := Nat.mod_lt _ (by omega)
  rw [Nat.sub_mul, one_mul, Nat.mul_comm]
  generalize hq : bn * ((n + bn - 1) / bn) = q at h1 ⊢
  generalize hr : (n + bn - 1) % bn = r at h1 h2
  omega

theorem ceil_eq_zero (n bn : Nat) (hb : 1 ≤ bn) (hn : n = 0) : (n + bn - 1) / bn = 0 := by
  subst hn
  exact Nat.div_eq_of_lt (by omega)

theorem flat_batches_cover (n bn : Nat) (hb : 1 ≤ bn) :
    ∀ m : Nat,
      ((List.range m).map (fun k => ((k * bn : Nat) : Int))).flatMap
          (fun s => batch_indices s.toNat (min (s + (bn : Int)) (n : Int)).toNat) =
        List.range (min (m * bn) n) := by
  intro m
  induction m with
  | zero => simp
  | succ m ihm =>
      rw [List.range_succ, List.map_append, List.flatMap_append, ihm]
      simp only [List.map_cons, List.map_nil, List.flatMap_cons, List.flatMap_nil,
        List.append_nil]
      have hts : (((m * bn : Nat)) : Int).toNat = m * bn := Int.toNat_natCast _
      have htmin : (min (((m * bn : Nat) : Int) + (bn : Int)) (n : Int)).toNat =
          min (m * bn + bn) n := by omega
      rw [hts, htmin]
      have hsucc : (m + 1) * bn = m * bn + bn := by ring
      by_cases hc : m * bn ≤ n
      · have hmin1 : min (m * bn) n = m * bn := min_eq_left hc
        rw [hmin1, batch_indices, ← List.range_add]
        have : m * bn + (min (m * bn + bn) n - m * bn) = min ((m + 1) * bn) n := by
          rw [hsucc]; omega
        rw [this]
      · have hmin1 : min (m * bn) n = n := min_eq_right (by omega)
        have hd : min (m * bn + bn) n - m * bn = 0 := by omega
        have hmin2 : min ((m + 1) * bn) n = n := min_eq_right (by rw [hsucc]; omega)
        rw [hmin1, batch_indices, hd, hmin2]
        simp

theorem starts_filter_delays (n bn : Nat) (hb : 1 ≤ bn) :
    (((List.range ((n + bn - 1) / bn)).map (fun k => ((k * bn : Nat) : Int))).filter
        (fun s => decide (min (s + (bn : Int)) (n : Int) < (n : Int)))).length =
      (n + bn - 1) / bn - 1 := by
  rw [List.filter_map, List.length_map]
  have hcong : List.filter
      ((fun s => decide (min (s + (bn : Int)) (n : Int) < (n : Int))) ∘
        (fun k => ((k * bn : Nat) : Int))) (List.range ((n + bn - 1) / bn)) =
      List.filter (fun k => decide ((k + 1) * bn < n)) (List.range ((n + bn - 1) / bn)) := by
    refine List.filter_congr fun k _ => ?_
    have hsucc : (k + 1) * bn = k * bn + bn := by ring
    simp only [Function.comp]
    rw [decide_eq_decide]
    rw [hsucc]
    omega
  rw [hcong]
  rcases Nat.eq_zero_or_pos ((n + bn - 1) / bn) with hm | hm
  · rw [hm]; simp
  · have hn1 : 1 ≤ n := by
      by_contra hn0
      rw [ceil_eq_zero n bn hb (by omega)] at hm
      omega
    obtain ⟨m', hm'⟩ : ∃ m', (n + bn - 1) / bn = m' + 1 := ⟨_, (Nat.succ_pred_eq_of_pos hm).symm⟩
    rw [hm', List.range_succ, List.filter_append, List.length_append]
    have hlast : List.filter (fun k => decide ((k + 1) * bn < n)) [m'] = [] := by
      have : ¬ ((m' + 1) * bn < n) := by
        have := ceil_mul_ge n bn hb
        rw [hm'] at this
        omega
      simp [this]
    have hall : List.filter (fun k => decide ((k + 1) * bn < n)) (List.range m') =
        List.range m' := by
      refine List.filter_eq_self.mpr fun k hk => ?_
      have hk' : k < m' := List.mem_range.mp hk
      have hle : (k + 1) * bn ≤ m' * bn := Nat.mul_le_mul_right bn (by omega)
      have hlt : m' * bn < n := by
        have := ceil_pred_mul_lt n bn hb hn1
        rw [hm'] at this
        simpa using this
      simp only [decide_eq_true_eq]
      omega
    rw [hlast, hall]
    simp

theorem process_chunks_parallel_eq_run (chunks : List Chunk)
    (extract : Nat → Except String String) (b : Int) (perm : List Nat → List Nat)
    (starts : List Int) (h : pythonRange 0 chunks.length b = .ok starts) :
    process_chunks_parallel chunks extract b perm =
      .ok (run_batches chunks.length b extract perm starts
        (List.replicate chunks.length none, 0)) := by
  rw [process_chunks_parallel, h]
  rfl

theorem process_chunks_parallel_spec (chunks : List Chunk)
    (extract : Nat → Except String String) (b : Int) (hb : 1 ≤ b)
    (perm : List Nat → List Nat) (hperm : ∀ l, (perm l).Perm l) :
    process_chunks_parallel chunks extract b perm =
      .ok ((List.range chunks.length).map fun j => some (render_result (extract j)),
        (chunks.length + b.toNat - 1) / b.toNat - 1) := by
  obtain ⟨bn, rfl⟩ : ∃ bn : Nat, (bn : Int) = b := ⟨b.toNat, Int.toNat_of_nonneg (by omega)⟩
  have hbn : 1 ≤ bn := by exact_mod_cast hb
  rw [process_chunks_parallel_eq_run chunks extract _ perm _
    (pythonRange_pos chunks.length _ hb)]
  simp only [Int.toNat_natCast]
  set n := chunks.length with hn
  set m := (n + bn - 1) / bn with hm
  set rb := run_batches n (bn : Int) extract perm
    ((List.range m).map fun k => ((k * bn : Nat) : Int))
    (List.replicate n none, 0) with hrb
  have hfst : rb.1 = (List.range n).map fun j => some (render_result (extract j)) := by
    apply List.ext_getElem?
    intro j
    rw [hrb, run_batches_fst_getElem? n _ extract perm hperm _ _ _ j
      (List.length_replicate n none)]
    rw [flat_batches_cover n bn hbn m]
    have hcov : min (m * bn) n = n := min_eq_right (ceil_mul_ge n bn hbn)
    rw [hcov]
    by_cases hj : j < n
    · rw [if_pos ⟨List.mem_range.mpr hj, hj⟩, List.getElem?_map, List.getElem?_range hj]
      rfl
    · rw [if_neg (fun h => hj h.2), List.getElem?_replicate, if_neg hj,
        List.getElem?_map, List.getElem?_eq_none (by simpa using Nat.le_of_not_lt hj)]
      rfl
  have hsnd : rb.2 = m - 1 := by
    rw [hrb, run_batches_snd, starts_filter_delays n bn hbn]
    omega
  rw [← hfst, ← hsnd]

theorem batch_indices_length (s e : Nat) : (batch_indices s e).length = e - s := by
  simp [batch_indices]

theorem coordinator_batches_flatten (n bn : Nat) (hb : 1 ≤ bn) :
    (coordinator_batches n bn).flatten = List.range n := by
  have hmap : ((List.range ((n + bn - 1) / bn)).map (fun k => ((k * bn : Nat) : Int))).flatMap
      (fun s => batch_indices s.toNat (min (s + (bn : Int)) (n : Int)).toNat) =
      List.range (min (((n + bn - 1) / bn) * bn) n) := flat_batches_cover n bn hb _
  rw [List.flatMap_map] at hmap
  have hfun : (fun a : Nat => batch_indices (((a * bn : Nat) : Int)).toNat
        (min (((a * bn : Nat) : Int) + (bn : Int)) (n : Int)).toNat) =
      fun k => batch_indices (k * bn) (min ((k + 1) * bn) n) := by
    funext k
    have hsucc : (k + 1) * bn = k * bn + bn := by ring
    simp only [Int.toNat_natCast]
    congr 1
    rw [hsucc]
    omega
  rw [hfun] at hmap
  have hcov : min (((n + bn - 1) / bn) * bn) n = n := min_eq_right (ceil_mul_ge n bn hb)
  rw [hcov] at hmap
  rw [coordinator_batches, ← List.flatMap_def]
  exact hmap

theorem coordinator_batches_le (n bn : Nat) (hb : 1 ≤ bn) :
    ∀ batch ∈ coordinator_batches n bn, batch.length ≤ bn := by
  intro batch hbatch
  rw [coordinator_batches, List.mem_map] at hbatch
  obtain ⟨k, hk, rfl⟩ := hbatch
  rw [batch_indices_length]
  have hsucc : (k + 1) * bn = k * bn + bn := by ring
  omega

theorem coordinator_batches_length (n bn : Nat) :
    (coordinator_batches n bn).length = (n + bn - 1) / bn := by
  simp [coordinator_batches]

theorem coordinator_batches_full (n bn : Nat) (hb : 1 ≤ bn) :
    ∀ k batch, k + 1 < (coordinator_batches n bn).length →
      (coordinator_batches n bn)[k]? = some batch → batch.length = bn := by
  intro k batch hk hget
  rw [coordinator_batches_length] at hk
  rw [coordinator_batches, List.getElem?_map, List.getElem?_range (by omega)] at hget
  simp only [Option.map_some'] at hget
  obtain rfl : batch_indices (k * bn) (min ((k + 1) * bn) n) = batch :=
    Option.some.inj hget
  rw [batch_indices_length]
  have hn1 : 1 ≤ n := by
    by_contra hn0
    rw [ceil_eq_zero n bn hb (by omega)] at hk
    omega
  have hle : (k + 1) * bn ≤ ((n + bn - 1) / bn - 1) * bn :=
    Nat.mul_le_mul_right bn (by omega)
  have hlt : ((n + bn - 1) / bn - 1) * bn < n := ceil_pred_mul_lt n bn hb hn1
  have hsucc : (k + 1) * bn = k * bn + bn := by ring
  omega

/-- C1: for every chunk list, every assignment of per-chunk extraction outcomes
(the prompt template, dry-run flag and source id are absorbed into the outcome
of each call), every batch size ≥ 1 (the repository only invokes the
coordinator with its default batch size 3), and any completion order of the
futures inside each batch, `process_chunks_parallel` returns exactly one
result per input chunk, placed at that chunk's original index; moreover if the
extraction call for chunk `i` raises, slot `i` holds the inline error marker
and every other slot holds exactly the value it holds in a run where call `i`
succeeds. -/
theorem C1_parallel_order_and_isolation
    (chunks : List Chunk) (f g : Nat → Except String String) (b : Int) (hb : 1 ≤ b)
    (perm permg : List Nat → List Nat) (hperm : ∀ l, (perm l).Perm l)
    (hpermg : ∀ l, (permg l).Perm l) (i : Nat) (e : String)
    (hfg : ∀ j, j ≠ i → f j = g j) (hfi : f i = .error e) :
    process_chunks_parallel chunks f b perm =
      .ok ((List.range chunks.length).map fun j => some (render_result (f j)),
        (chunks.length + b.toNat - 1) / b.toNat - 1) ∧
    process_chunks_parallel chunks g b permg =
      .ok ((List.range chunks.length).map fun j => some (render_result (g j)),
        (chunks.length + b.toNat - 1) / b.toNat - 1) ∧
    (∀ j, j < chunks.length → j ≠ i →
      ((List.range chunks.length).map fun j => some (render_result (f j)))[j]? =
        ((List.range chunks.length).map fun j => some (render_result (g j)))[j]?) ∧
    (i < chunks.length →
      ((List.range chunks.length).map fun j => some (render_result (f j)))[i]? =
        some (some ("# Error\n\nFailed to extract: " ++ e))) := by
  refine ⟨process_chunks_parallel_spec chunks f b hb perm hperm,
    process_chunks_parallel_spec chunks g b hb permg hpermg, ?_, ?_⟩
  · intro j hj hne
    rw [List.getElem?_map, List.getElem?_map, List.getElem?_range hj]
    simp only [Option.map_some']
    rw [hfg j hne]
  · intro hi
    rw [List.getElem?_map, List.getElem?_range hi]
    simp only [Option.map_some']
    rw [hfi]
    rfl

/-- C1 witness: two chunks, the default batch size 3, reversed completion
order for the failing run, identity order for the succeeding run, call 0
raising `"boom"`. -/
theorem C1_parallel_order_and_isolation_witness :
    process_chunks_parallel [wChunk, wChunk] wExtractF 3 List.reverse =
      .ok ((List.range ([wChunk, wChunk] : List Chunk).length).map
          fun j => some (render_result (wExtractF j)),
        (([wChunk, wChunk] : List Chunk).length + (3 : Int).toNat - 1) /
          (3 : Int).toNat - 1) ∧
    process_chunks_parallel [wChunk, wChunk] wExtractG 3 id =
      .ok ((List.range ([wChunk, wChunk] : List Chunk).length).map
          fun j => some (render_result (wExtractG j)),
        (([wChunk, wChunk] : List Chunk).length + (3 : Int).toNat - 1) /
          (3 : Int).toNat - 1) ∧
    (∀ j, j < ([wChunk, wChunk] : List Chunk).length → j ≠ 0 →
      ((List.range ([wChunk, wChunk] : List Chunk).length).map
          fun j => some (render_result (wExtractF j)))[j]? =
        ((List.range ([wChunk, wChunk] : List Chunk).length).map
          fun j => some (render_result (wExtractG j)))[j]?) ∧
    (0 < ([wChunk, wChunk] : List Chunk).length →
      ((List.range ([wChunk, wChunk] : List Chunk).length).map
          fun j => some (render_result (wExtractF j)))[0]? =
        some (some ("# Error\n\nFailed to extract: " ++ "boom"))) :=
  C1_parallel_order_and_isolation [wChunk, wChunk] wExtractF wExtractG 3 (by norm_num)
    List.reverse id (fun l => l.reverse_perm) (fun l => List.Perm.refl l) 0 "boom"
    (fun j hj => by simp [wExtractF, wExtractG, hj]) rfl

/-- C6 counterexample: at `batch_size = 0` the claim fails — Python's
`range(0, len(chunks), 0)` raises `ValueError`, so the coordinator produces no
batches, no results and no delays even for a nonempty chunk list. -/
theorem C6_counterexample :
    process_chunks_parallel [wChunk] wExtractG 0 id =
      .error "range() arg 3 must not be zero" := rfl

/-- C6 (amended): for every chunk list of length n and every batch_size b ≥ 1,
the coordinator partitions the chunk indices into consecutive batches of at
most b each — all of size exactly b except a possibly shorter final batch —
processes them in sequence, performs the pacing delay exactly once between
consecutive batches (number of batches minus one, hence never after the final
batch), and returns one result per chunk in original order.  At b = 0 the
coordinator instead raises ValueError (see the counterexample). -/
theorem C6_batching_amended (chunks : List Chunk)
    (extract : Nat → Except String String) (b : Int) (hb : 1 ≤ b)
    (perm : List Nat → List Nat) (hperm : ∀ l, (perm l).Perm l) :
    (coordinator_batches chunks.length b.toNat).flatten = List.range chunks.length ∧
    (∀ batch ∈ coordinator_batches chunks.length b.toNat, batch.length ≤ b.toNat) ∧
    (∀ k batch, k + 1 < (coordinator_batches chunks.length b.toNat).length →
      (coordinator_batches chunks.length b.toNat)[k]? = some batch →
      batch.length = b.toNat) ∧
    process_chunks_parallel chunks extract b perm =
      .ok ((List.range chunks.length).map fun j => some (render_result (extract j)),
        (coordinator_batches chunks.length b.toNat).length - 1) := by
  have hbn : 1 ≤ b.toNat := by omega
  refine ⟨coordinator_batches_flatten _ _ hbn, coordinator_batches_le _ _ hbn,
    coordinator_batches_full _ _ hbn, ?_⟩
  rw [process_chunks_parallel_spec chunks extract b hb perm hperm,
    coordinator_batches_length]

/-- C6 witness: the spec's end-to-end scenario — 7 chunks with batch size 3
give the batch partition `[[0,1,2],[3,4,5],[6]]` (sizes 3, 3, 1) and exactly
two inter-batch delays, with 7 results in original order. -/
theorem C6_batching_amended_witness :
    ((coordinator_batches wChunks7.length (3 : Int).toNat).flatten =
        List.range wChunks7.length ∧
      (∀ batch ∈ coordinator_batches wChunks7.length (3 : Int).toNat,
        batch.length ≤ (3 : Int).toNat) ∧
      (∀ k batch, k + 1 < (coordinator_batches wChunks7.length (3 : Int).toNat).length →
        (coordinator_batches wChunks7.length (3 : Int).toNat)[k]? = some batch →
        batch.length = (3 : Int).toNat) ∧
      process_chunks_parallel wChunks7 wExtractG 3 id =
        .ok ((List.range wChunks7.length).map
            fun j => some (render_result (wExtractG j)),
          (coordinator_batches wChunks7.length (3 : Int).toNat).length - 1)) ∧
    (coordinator_batches 7 3).map List.length = [3, 3, 1] ∧
    (coordinator_batches 7 3).length - 1 = 2 :=
  ⟨C6_batching_amended wChunks7 wExtractG 3 (by norm_num) id
      (fun l => List.Perm.refl l),
    by decide, by decide⟩

/-- C10: merging an empty extraction list returns the empty string — neither
branch raises and no separator tag is produced. -/
theorem C10_merge_empty (source_id : String) : merge_extractions [] source_id = "" := rfl

/-- C7: merging a one-element list returns that single element unchanged (no
separator), and merging a list of two or more elements returns the elements in
input order, each preceded by the separator tag carrying the source id and the
element's positional index, consecutive sections joined by a blank line. -/
theorem C7_merge_format (x source_id : String) (l : List String) (h : 2 ≤ l.length) :
    merge_extractions [x] source_id = x ∧
    merge_extractions l source_id =
      String.intercalate "\n\n" (tagged_sections source_id 0 l) := by
  refine ⟨rfl, ?_⟩
  match l, h with
  | a :: b :: rest, _ =>
      rw [merge_extractions]
      · rw [List.enum, enumFrom_map_tagged source_id (a :: b :: rest) 0]
      · intro y hy
        simp at hy

/-- C7 witness: merging `["a", "b"]` for source `"src"` produces the two
tagged sections joined by a blank line, and a singleton merge is untouched. -/
theorem C7_merge_format_witness :
    (merge_extractions ["only"] "src" = "only" ∧
      merge_extractions ["a", "b"] "src" =
        String.intercalate "\n\n" (tagged_sections "src" 0 ["a", "b"])) ∧
    String.intercalate "\n\n" (tagged_sections "src" 0 ["a", "b"]) =
      "<|llms-section-src-0|>\na\n\n<|llms-section-src-1|>\nb" :=
  ⟨C7_merge_format "only" "src" ["a", "b"] (by decide), by decide⟩

theorem filterMap_fetch_urls (fetch : String → Option String)
    (G : Nat × String → String → Chunk) (hG : ∀ p t, (G p t).url = p.2)
    (hfetch : ∀ u, (fetch u).isSome) :
    ∀ (l : List String) (i : Nat),
      (((List.enumFrom i l).filterMap fun p => (fetch p.2).map (G p))).map Chunk.url
        = l := by
  intro l
  induction l with
  | nil => intro i; rfl
  | cons x rest ih =>
      intro i
      obtain ⟨t, ht⟩ := Option.isSome_iff_exists.mp (hfetch x)
      simp only [List.enumFrom, List.filterMap_cons, ht, Option.map_some', List.map_cons]
      rw [hG, ih (i + 1)]

theorem pythonTake_nonneg {α : Type} (m : Int) (h : 0 ≤ m) (l : List α) :
    pythonTake m l = l.take m.toNat := by
  rw [pythonTake, if_pos h]

/-- C5 (amended): for a root page with N discoverable pagination links (after
absolutization and deduplication, all distinct from the root URL), a size
limit k ≥ 1, and all fetches succeeding, the paginated strategy returns
exactly min k (N+1) chunks; the first chunk is the root page and the
subsequent chunks are the pagination URLs in lexicographic sort order
(`sorted(page_urls)[:k-1]`).  For k ≤ 0, Python's negative slice applies
instead and the root chunk is still produced (see the counterexample). -/
theorem C5_paginated_amended (html text source_id url : String) (k : Int) (env : Env)
    (hk : 1 ≤ k) (hfetch : ∀ u, (env.fetch u).isSome) :
    ((chunk_paginated html text source_id url k env).length : Int) =
      min k (((paginated_page_urls (env.pagination_links html url) url).length : Int) + 1) ∧
    (chunk_paginated html text source_id url k env).head? =
      some ⟨source_id ++ "_page1", url, text,
        [("type", .s "paginated"), ("page", .n 1)]⟩ ∧
    ((chunk_paginated html text source_id url k env).tail.map Chunk.url) =
      pythonTake (k - 1)
        ((paginated_page_urls (env.pagination_links html url) url).mergeSort pyStrLe) ∧
    ((chunk_paginated html text source_id url k env).tail.map Chunk.url).Pairwise
      (fun a b => pyStrLe a b = true) := by
  have htail : (chunk_paginated html text source_id url k env).tail =
      (List.enumFrom 2 (pythonTake (k - 1)
        ((paginated_page_urls (env.pagination_links html url) url).mergeSort
          pyStrLe))).filterMap
        fun p => (env.fetch p.2).map fun page_text =>
          (⟨source_id ++ "_page" ++ toString p.1, p.2, page_text,
            [("type", .s "paginated"), ("page", .n p.1)]⟩ : Chunk) := rfl
  have hurls : ((chunk_paginated html text source_id url k env).tail.map Chunk.url) =
      pythonTake (k - 1)
        ((paginated_page_urls (env.pagination_links html url) url).mergeSort pyStrLe) := by
    rw [htail]
    exact filterMap_fetch_urls env.fetch _ (fun p t => rfl) hfetch _ 2
  refine ⟨?_, rfl, hurls, ?_⟩
  · have hlen : (chunk_paginated html text source_id url k env).length =
        (chunk_paginated html text source_id url k env).tail.length + 1 := rfl
    have hlen2 : (chunk_paginated html text source_id url k env).tail.length =
        (pythonTake (k - 1)
          ((paginated_page_urls (env.pagination_links html url) url).mergeSort
            pyStrLe)).length := by
      rw [← List.length_map _ Chunk.url, hurls]
    rw [hlen, hlen2, pythonTake_nonneg (k - 1) (by omega), List.length_take,
      List.length_mergeSort]
    omega
  · rw [hurls, pythonTake_nonneg (k - 1) (by omega)]
    exact List.Pairwise.sublist (List.take_sublist _ _)
      (List.sorted_mergeSort pyStrLe_trans pyStrLe_total _)

/-- C5 witness: one discovered pagination link and k = 2 with all fetches
succeeding — two chunks, root first, the link second. -/
theorem C5_paginated_amended_witness :
    ((chunk_paginated "h" "t" "src" "http://e/" 2 pagEnv).length : Int) =
      min 2 (((paginated_page_urls (pagEnv.pagination_links "h" "http://e/")
        "http://e/").length : Int) + 1) ∧
    (chunk_paginated "h" "t" "src" "http://e/" 2 pagEnv).head? =
      some ⟨"src" ++ "_page1", "http://e/", "t",
        [("type", .s "paginated"), ("page", .n 1)]⟩ ∧
    ((chunk_paginated "h" "t" "src" "http://e/" 2 pagEnv).tail.map Chunk.url) =
      pythonTake (2 - 1)
        ((paginated_page_urls (pagEnv.pagination_links "h" "http://e/")
          "http://e/").mergeSort pyStrLe) ∧
    ((chunk_paginated "h" "t" "src" "http://e/" 2 pagEnv).tail.map Chunk.url).Pairwise
      (fun a b => pyStrLe a b = true) :=
  C5_paginated_amended "h" "t" "src" "http://e/" 2 pagEnv (by norm_num) (fun u => rfl)

/-- C5 counterexample: with size_limit k = 0 and N = 1 discoverable link, the
claim predicts min 0 (N+1) = 0 chunks, but the code always emits the root
chunk and `sorted(page_urls)[:-1]` drops only the last link, so one chunk is
produced. -/
theorem C5_counterexample :
    (chunk_paginated "h" "t" "src" "http://e/" 0 pagEnv).length = 1 ∧
    min (0 : Int) (((paginated_page_urls (pagEnv.pagination_links "h" "http://e/")
      "http://e/").length : Int) + 1) = 0 := by
  have hpu : paginated_page_urls (pagEnv.pagination_links "h" "http://e/") "http://e/" =
      ["http://e/2/"] := by decide
  constructor
  · have hchunks : chunk_paginated "h" "t" "src" "http://e/" 0 pagEnv =
        [⟨"src" ++ "_page1", "http://e/", "t",
          [("type", .s "paginated"), ("page", .n 1)]⟩] := by
      simp only [chunk_paginated, hpu, List.mergeSort_singleton]
      rw [show pythonTake (0 - 1) (["http://e/2/"] : List String) = [] from rfl]
      rfl
    rw [hchunks]
    rfl
  · rw [hpu]
    rfl

theorem enum_filterMap_urls (fetch : String → Option String)
    (G : Nat × String → String → Chunk) (hG : ∀ p t, (G p t).url = p.2) :
    ∀ (l : List String) (i : Nat),
      (((List.enumFrom i l).filterMap fun p => (fetch p.2).map (G p))).map Chunk.url
        = l.filter fun u => (fetch u).isSome := by
  intro l
  induction l with
  | nil => intro i; rfl
  | cons x rest ih =>
      intro i
      simp only [List.enumFrom, List.filterMap_cons, List.filter_cons]
      cases hx : fetch x with
      | none => simp only [Option.map_none', Option.isSome_none, Bool.false_eq_true,
          if_false, ih (i + 1)]
      | some t =>
          simp only [Option.map_some', Option.isSome_some, if_true, List.map_cons]
          rw [hG, ih (i + 1)]

theorem parse_sitemap_list_eq :
    ∀ subs : List Sitemap, parse_sitemap_list subs = (subs.map parse_sitemap).flatten := by
  intro subs
  induction subs with
  | nil => rfl
  | cons s rest ih => simp only [parse_sitemap_list, List.map_cons, List.flatten_cons, ih]

/-- C8: a size_limit of 0 or negative applies no truncation — one chunk per
URL that survives include/exclude filtering and whose fetch succeeds, in list
order; and `parse_sitemap` on a sitemap index document returns the
concatenation, in document order, of the URL lists of the referenced
sub-sitemaps, duplicates across sub-sitemaps preserved (list lengths add up —
no cross-sitemap deduplication). -/
theorem C8_sitemap_no_truncation_and_index (sitemap_url source_id : String)
    (chunk_size : Int) (ip ep cs : Option String) (env : Env) (hk : chunk_size ≤ 0)
    (subs : List Sitemap) (urls : List String) (hsubs : subs ≠ []) :
    ((chunk_sitemap sitemap_url source_id chunk_size ip ep cs env).map Chunk.url) =
      (filter_urls (parse_sitemap (env.sitemap sitemap_url)) ip ep env.fnm).filter
        (fun u => (env.fetch u).isSome) ∧
    parse_sitemap (.mk subs urls) = (subs.map parse_sitemap).flatten ∧
    (parse_sitemap (.mk subs urls)).length =
      ((subs.map parse_sitemap).map List.length).sum := by
  have hidx : parse_sitemap (.mk subs urls) = (subs.map parse_sitemap).flatten := by
    rw [parse_sitemap, if_neg (fun h => hsubs (List.isEmpty_iff.mp h)),
      parse_sitemap_list_eq]
  refine ⟨?_, hidx, ?_⟩
  · simp only [chunk_sitemap]
    rw [if_neg (by omega), List.enum]
    exact enum_filterMap_urls env.fetch _ (fun p t => rfl) _ 0
  · rw [hidx, List.length_flatten]

/-- C8 witness: size_limit 0, an index of two sub-sitemaps sharing the URL
`"u"` — the duplicate is preserved and each of the three filtered URLs yields
a chunk in list order. -/
theorem C8_sitemap_witness :
    (((chunk_sitemap "http://s" "sid" 0 none none none siteEnv).map Chunk.url) =
      (filter_urls (parse_sitemap (siteEnv.sitemap "http://s")) none none
        siteEnv.fnm).filter (fun u => (siteEnv.fetch u).isSome) ∧
    parse_sitemap (.mk [Sitemap.mk [] ["u", "v"], Sitemap.mk [] ["u"]] ["x"]) =
      (([Sitemap.mk [] ["u", "v"], Sitemap.mk [] ["u"]].map parse_sitemap)).flatten ∧
    (parse_sitemap (.mk [Sitemap.mk [] ["u", "v"], Sitemap.mk [] ["u"]] ["x"])).length =
      (([Sitemap.mk [] ["u", "v"], Sitemap.mk [] ["u"]].map parse_sitemap).map
        List.length).sum) ∧
    parse_sitemap (siteEnv.sitemap "http://s") = ["u", "v", "u"] :=
  ⟨C8_sitemap_no_truncation_and_index "http://s" "sid" 0 none none none siteEnv
      (by norm_num) [Sitemap.mk [] ["u", "v"], Sitemap.mk [] ["u"]] ["x"] (by simp),
    rfl⟩

theorem filter_urls_subset (urls : List String) (ip ep : Option String)
    (fnm : String → String → Bool) : filter_urls urls ip ep fnm ⊆ urls := by
  intro x hx
  cases ip <;> cases ep <;> simp only [filter_urls] at hx
  · exact hx
  · exact List.mem_of_mem_filter hx
  · exact List.mem_of_mem_filter hx
  · exact List.mem_of_mem_filter (List.mem_of_mem_filter hx)

theorem recursive_internal_links_ne (links : List String) (url : String)
    (ip ep cs : Option String) (fnm : String → String → Bool) :
    ∀ l ∈ recursive_internal_links links url ip ep cs fnm, l ≠ url := by
  intro l hl
  have hbase : ∀ x ∈ links.filter
      (fun l => urlparse_netloc l == urlparse_netloc url && l != url), x ≠ url := by
    intro x hx
    have := List.of_mem_filter hx
    simp only [Bool.and_eq_true, bne_iff_ne] at this
    exact this.2
  rw [recursive_internal_links] at hl
  split at hl
  · exact hbase l (filter_urls_subset _ _ _ _ hl)
  · split at hl
    · exact hbase l (List.mem_of_mem_filter hl)
    · exact hbase l hl

theorem chunk_recursive_go_urls (source_id : String) (fetch : String → Option String) :
    ∀ (links : List String) (cnt : Nat),
      ((chunk_recursive_go source_id fetch links cnt).map Chunk.url) =
        links.filter fun u => (fetch u).isSome := by
  intro links
  induction links with
  | nil => intro cnt; rfl
  | cons x rest ih =>
      intro cnt
      rw [chunk_recursive_go]
      cases hx : fetch x with
      | none => simp only [List.filter_cons, hx, Option.isSome_none, Bool.false_eq_true,
          if_false, ih cnt]
      | some t =>
          simp only [List.filter_cons, hx, Option.isSome_some, if_true, List.map_cons,
            ih (cnt + 1)]

theorem pythonTake_subset {α : Type} (m : Int) (l : List α) : pythonTake m l ⊆ l := by
  rw [pythonTake]
  split
  · exact List.take_subset _ _
  · exact List.take_subset _ _

/-- C9: a discovered link equal (as a string) to the root URL is never fetched
as a sub-chunk, under every configuration of patterns and selector; and when a
content selector is set and neither include nor exclude pattern is given, the
internal-link list is exactly the same-host links distinct from the root URL —
no path-based restriction — and, within the size limit, each of them whose
fetch succeeds becomes a sub-chunk in discovered order. -/
theorem C9_recursive_root_and_selector (html text source_id url : String)
    (chunk_size max_depth : Int) (sel : String) (env : Env) (hdepth : 1 ≤ max_depth) :
    (∀ ip ep cs, ∀ c ∈ (chunk_recursive html text source_id url chunk_size max_depth
        cs ip ep env).tail, c.url ≠ url) ∧
    recursive_internal_links (env.links_in html (some sel) url) url none none
        (some sel) env.fnm =
      (env.links_in html (some sel) url).filter
        (fun l => urlparse_netloc l == urlparse_netloc url && l != url) ∧
    (∀ l ∈ env.links_in html (some sel) url,
      urlparse_netloc l = urlparse_netloc url → l ≠ url →
      l ∈ recursive_internal_links (env.links_in html (some sel) url) url none none
        (some sel) env.fnm) ∧
    ((chunk_recursive html text source_id url chunk_size max_depth (some sel) none
        none env).tail.map Chunk.url) =
      (pythonTake (chunk_size - 1)
        ((env.links_in html (some sel) url).filter
          (fun l => urlparse_netloc l == urlparse_netloc url && l != url))).filter
        (fun u => (env.fetch u).isSome) := by
  have hsel : recursive_internal_links (env.links_in html (some sel) url) url none none
      (some sel) env.fnm =
      (env.links_in html (some sel) url).filter
        (fun l => urlparse_netloc l == urlparse_netloc url && l != url) := by
    rw [recursive_internal_links]
    simp
  have htail : ∀ ip ep cs,
      (chunk_recursive html text source_id url chunk_size max_depth cs ip ep env).tail =
        chunk_recursive_go source_id env.fetch
          (pythonTake (chunk_size - 1)
            (recursive_internal_links (env.links_in html cs url) url ip ep cs env.fnm))
          1 := by
    intro ip ep cs
    rw [chunk_recursive, if_neg (by omega)]
    simp only [List.singleton_append, List.tail_cons]
  refine ⟨?_, hsel, ?_, ?_⟩
  · intro ip ep cs c hc
    have hurl : c.url ∈ ((chunk_recursive html text source_id url chunk_size max_depth
        cs ip ep env).tail.map Chunk.url) := List.mem_map_of_mem Chunk.url hc
    rw [htail ip ep cs, chunk_recursive_go_urls] at hurl
    exact recursive_internal_links_ne _ _ _ _ _ _ _
      (pythonTake_subset _ _ (List.mem_of_mem_filter hurl))
  · intro l hl hnet hne
    rw [hsel, List.mem_filter]
    exact ⟨hl, by simp [hnet, hne]⟩
  · rw [htail none none (some sel), chunk_recursive_go_urls, hsel]

/-- C9 witness: root `"http://h/a/"` with a content selector set and no
patterns; the same-host link `"http://h/b/x"` lies outside the root's path yet
is kept and fetched, and no sub-chunk carries the root URL.  The final
conjunct evaluates the sub-chunk URL list concretely. -/
theorem C9_recursive_witness :
    ((∀ ip ep cs, ∀ c ∈ (chunk_recursive "h" "t" "src" "http://h/a/" 5 2
        cs ip ep recEnv).tail, c.url ≠ "http://h/a/") ∧
    recursive_internal_links (recEnv.links_in "h" (some ".main") "http://h/a/")
        "http://h/a/" none none (some ".main") recEnv.fnm =
      (recEnv.links_in "h" (some ".main") "http://h/a/").filter
        (fun l => urlparse_netloc l == urlparse_netloc "http://h/a/" &&
          l != "http://h/a/") ∧
    (∀ l ∈ recEnv.links_in "h" (some ".main") "http://h/a/",
      urlparse_netloc l = urlparse_netloc "http://h/a/" → l ≠ "http://h/a/" →
      l ∈ recursive_internal_links (recEnv.links_in "h" (some ".main") "http://h/a/")
        "http://h/a/" none none (some ".main") recEnv.fnm) ∧
    ((chunk_recursive "h" "t" "src" "http://h/a/" 5 2 (some ".main") none
        none recEnv).tail.map Chunk.url) =
      (pythonTake (5 - 1)
        ((recEnv.links_in "h" (some ".main") "http://h/a/").filter
          (fun l => urlparse_netloc l == urlparse_netloc "http://h/a/" &&
            l != "http://h/a/"))).filter
        (fun u => (recEnv.fetch u).isSome)) ∧
    ((chunk_recursive "h" "t" "src" "http://h/a/" 5 2 (some ".main") none
        none recEnv).tail.map Chunk.url) = ["http://h/b/x", "http://h/a/y"] :=
  ⟨C9_recursive_root_and_selector "h" "t" "src" "http://h/a/" 5 2 ".main" recEnv
      (by norm_num),
    by decide⟩

theorem alpha_go_contents (source_id url : String) (chunk_size : Int) :
    ∀ (lines : List String) (acc : List Chunk) (gacc : List (List String))
      (cur : List String) (letters : List Char) (items : Nat) (cs : List Chunk),
      acc.map Chunk.content = gacc.map (String.intercalate "\n") →
      alpha_go source_id url chunk_size lines acc cur letters items = .ok cs →
      cs.map Chunk.content =
        (alpha_groups_go chunk_size lines gacc cur items).map
          (String.intercalate "\n") := by
  intro lines
  induction lines with
  | nil =>
      intro acc gacc cur letters items cs hacc hok
      rw [alpha_go] at hok
      rw [alpha_groups_go]
      by_cases hcur : cur.isEmpty
      · rw [if_pos hcur] at hok
        rw [if_pos hcur]
        obtain rfl := Except.ok.inj hok
        exact hacc
      · rw [if_neg hcur] at hok
        rw [if_neg hcur]
        obtain rfl := Except.ok.inj hok
        rw [List.map_append, List.map_append, hacc]
        rfl
  | cons line rest ih =>
      intro acc gacc cur letters items cs hacc hok
      rw [alpha_go] at hok
      rw [alpha_groups_go]
      simp only [] at hok ⊢
      by_cases hstrip : pyStrip line = ""
      · rw [if_pos hstrip] at hok
        rw [if_pos hstrip]
        exact ih acc gacc cur letters items cs hacc hok
      · rw [if_neg hstrip] at hok
        rw [if_neg hstrip]
        by_cases halpha : ((pyStrip line).data.headD ' ').toUpper.isAlpha = true
        · rw [if_pos halpha] at hok
          by_cases hcond : chunk_size ≤ (items : Int) ∧ cur ≠ []
          · rw [if_pos hcond] at hok
            rw [if_pos ⟨halpha, hcond.1, hcond.2⟩]
            cases hmlr : mid_letter_range letters with
            | error e => rw [hmlr] at hok; cases hok
            | ok lr =>
                rw [hmlr] at hok
                refine ih _ _ _ _ _ _ ?_ hok
                rw [List.map_append, List.map_append, hacc]
                rfl
          · rw [if_neg hcond] at hok
            rw [if_neg (fun hc => hcond ⟨hc.2.1, hc.2.2⟩)]
            exact ih _ _ _ _ _ _ hacc hok
        · rw [if_neg halpha] at hok
          rw [if_neg (fun hc => halpha hc.1)]
          exact ih _ _ _ _ _ _ hacc hok

/-- C4 counterexample: text `"Apple\nAnt\nAxe"` with size_limit 2 — all three
lines share the leading letter A, yet a chunk boundary is placed before
`"Axe"` (the code checks only that the line starts with *some* alphabetic
character, not a letter unseen in the open chunk), splitting the letter group
across two chunks. -/
theorem C4_counterexample :
    chunk_alphabetical "h" "Apple\nAnt\nAxe" "src" "u" 2 =
      .ok [⟨"src_A", "u", "Apple\nAnt",
          [("type", .s "alphabetical"), ("letters", .s "A")]⟩,
        ⟨"src_A", "u", "Axe",
          [("type", .s "alphabetical"), ("letters", .s "A")]⟩] ∧
    (["Apple\nAnt", "Axe"].map fun s => (s.data.headD ' ').toUpper) = ['A', 'A'] :=
  ⟨rfl, by decide⟩

/-- C4 (amended): in the alphabetical strategy a chunk boundary occurs exactly
when the running item count has reached size_limit AND the current non-blank
line begins with an alphabetic character — whether or not its letter was
already seen in the open chunk — so lines sharing a leading letter CAN be
split across chunks; lines beginning with non-alphabetic characters never
trigger a boundary, which is what lets a chunk exceed size_limit.  Whenever
the strategy returns, its chunk contents are exactly the groups produced by
this rule (joined by newlines), with the single-chunk fallback when the rule
yields no group. -/
theorem C4_alphabetical_boundary_amended (html text source_id url : String)
    (chunk_size : Int) (cs : List Chunk)
    (h : chunk_alphabetical html text source_id url chunk_size = .ok cs) :
    (alpha_groups text chunk_size ≠ [] →
      cs.map Chunk.content =
        (alpha_groups text chunk_size).map (String.intercalate "\n")) ∧
    (alpha_groups text chunk_size = [] → cs = chunk_single html text source_id url) := by
  rw [chunk_alphabetical] at h
  cases hgo : alpha_go source_id url chunk_size (pySplit text '\n') [] [] [] 0 with
  | error e => rw [hgo] at h; cases h
  | ok l =>
      rw [hgo] at h
      have hcorr : l.map Chunk.content =
          (alpha_groups text chunk_size).map (String.intercalate "\n") :=
        alpha_go_contents source_id url chunk_size _ [] [] [] [] 0 l rfl hgo
      cases l with
      | nil =>
          obtain rfl := Except.ok.inj h
          have hgroups : alpha_groups text chunk_size = [] := by
            have h0 : (alpha_groups text chunk_size).map (String.intercalate "\n") = [] := by
              rw [← hcorr]; rfl
            exact List.map_eq_nil_iff.mp h0
          exact ⟨fun hne => absurd hgroups hne, fun _ => rfl⟩
      | cons c l' =>
          obtain rfl := Except.ok.inj h
          refine ⟨fun _ => hcorr, fun hgroups => ?_⟩
          rw [hgroups] at hcorr
          simp at hcorr

/-- C4 witness: text `"B\nA"` with size_limit 1 — the boundary fires before
`"A"` because the open chunk already holds one item and `"A"` is alphabetic
(a *new* letter here, but the rule does not require that), giving groups
`[["B"], ["A"]]`. -/
theorem C4_alphabetical_boundary_amended_witness :
    (alpha_groups "B\nA" 1 ≠ [] →
      ([⟨"src_B", "u", "B", [("type", .s "alphabetical"), ("letters", .s "B")]⟩,
        ⟨"src_A", "u", "A", [("type", .s "alphabetical"), ("letters", .s "A")]⟩] :
          List Chunk).map Chunk.content =
        (alpha_groups "B\nA" 1).map (String.intercalate "\n")) ∧
    (alpha_groups "B\nA" 1 = [] →
      ([⟨"src_B", "u", "B", [("type", .s "alphabetical"), ("letters", .s "B")]⟩,
        ⟨"src_A", "u", "A", [("type", .s "alphabetical"), ("letters", .s "A")]⟩] :
          List Chunk) = chunk_single "h" "B\nA" "src" "u") :=
  C4_alphabetical_boundary_amended "h" "B\nA" "src" "u" 1 _ rfl

theorem pre_toString_inj (pre : String) {i j : Nat}
    (h : pre ++ toString i = pre ++ toString j) : i = j :=
  natToString_inj (string_append_cancel_left h)

theorem enum_filterMap_ids (fetch : String → Option String) (pre : String)
    (G : Nat × String → String → Chunk)
    (hGid : ∀ p t, (G p t).id = pre ++ toString p.1) :
    ∀ (l : List String) (i : Nat),
      (((List.enumFrom i l).filterMap fun p => (fetch p.2).map (G p)).map Chunk.id).Nodup ∧
      ∀ s ∈ ((List.enumFrom i l).filterMap fun p => (fetch p.2).map (G p)).map Chunk.id,
        ∃ j, i ≤ j ∧ s = pre ++ toString j := by
  intro l
  induction l with
  | nil => intro i; exact ⟨List.nodup_nil, by simp⟩
  | cons x rest ih =>
      intro i
      simp only [List.enumFrom, List.filterMap_cons]
      cases hx : fetch x with
      | none =>
          refine ⟨(ih (i + 1)).1, fun s hs => ?_⟩
          obtain ⟨j, hj, hsj⟩ := (ih (i + 1)).2 s hs
          exact ⟨j, by omega, hsj⟩
      | some t =>
          simp only [Option.map_some', List.map_cons]
          constructor
          · rw [List.nodup_cons]
            refine ⟨fun hmem => ?_, (ih (i + 1)).1⟩
            rw [hGid] at hmem
            obtain ⟨j, hj, hsj⟩ := (ih (i + 1)).2 _ hmem
            have := pre_toString_inj pre hsj
            omega
          · intro s hs
            rcases List.mem_cons.mp hs with h | h
            · exact ⟨i, le_refl i, by rw [h, hGid]⟩
            · obtain ⟨j, hj, hsj⟩ := (ih (i + 1)).2 s h
              exact ⟨j, by omega, hsj⟩

theorem chunk_recursive_go_ids (source_id : String) (fetch : String → Option String) :
    ∀ (links : List String) (cnt : Nat),
      ((chunk_recursive_go source_id fetch links cnt).map Chunk.id).Nodup ∧
      ∀ s ∈ (chunk_recursive_go source_id fetch links cnt).map Chunk.id,
        ∃ j, cnt ≤ j ∧ s = (source_id ++ "_") ++ toString j := by
  intro links
  induction links with
  | nil => intro cnt; exact ⟨List.nodup_nil, by simp [chunk_recursive_go]⟩
  | cons x rest ih =>
      intro cnt
      rw [chunk_recursive_go]
      cases hx : fetch x with
      | none =>
          refine ⟨(ih cnt).1, fun s hs => (ih cnt).2 s hs⟩
      | some t =>
          simp only [List.map_cons]
          constructor
          · rw [List.nodup_cons]
            refine ⟨fun hmem => ?_, (ih (cnt + 1)).1⟩
            obtain ⟨j, hj, hsj⟩ := (ih (cnt + 1)).2 _ hmem
            have := pre_toString_inj (source_id ++ "_") hsj
            omega
          · intro s hs
            rcases List.mem_cons.mp hs with h | h
            · exact ⟨cnt, le_refl cnt, h⟩
            · obtain ⟨j, hj, hsj⟩ := (ih (cnt + 1)).2 s h
              exact ⟨j, by omega, hsj⟩

/-- C3 counterexample: the alphabetical strategy with text `"A\nB\nA"` and
size_limit 1 produces three chunks whose ids are `src_A`, `src_B`, `src_A` —
the letter-range id repeats when lines with the same leading letter occur in
non-adjacent groups, so the ids are not pairwise distinct. -/
theorem C3_counterexample :
    create_chunks "h" "A\nB\nA" "src" "u" "alphabetical" 1 none none none wEnv =
      .ok [⟨"src_A", "u", "A", [("type", .s "alphabetical"), ("letters", .s "A")]⟩,
        ⟨"src_B", "u", "B", [("type", .s "alphabetical"), ("letters", .s "B")]⟩,
        ⟨"src_A", "u", "A", [("type", .s "alphabetical"), ("letters", .s "A")]⟩] ∧
    ([(⟨"src_A", "u", "A", [("type", .s "alphabetical"), ("letters", .s "A")]⟩ : Chunk),
      ⟨"src_B", "u", "B", [("type", .s "alphabetical"), ("letters", .s "B")]⟩,
      ⟨"src_A", "u", "A", [("type", .s "alphabetical"), ("letters", .s "A")]⟩].map
        Chunk.id) = ["src_A", "src_B", "src_A"] ∧
    ¬ (["src_A", "src_B", "src_A"] : List String).Nodup :=
  ⟨rfl, rfl, by decide⟩

/-- C3 (amended): within one `create_chunks` call, the chunk ids are pairwise
distinct for the single, paginated, recursive, sitemap and unrecognized
strategies; the alphabetical strategy can emit duplicate ids when lines with
the same leading letter appear in non-adjacent letter groups (see the
counterexample). -/
theorem C3_ids_nodup_amended (html text source_id url chunk_method : String)
    (chunk_size : Int) (ip ep cs : Option String) (env : Env)
    (hm : chunk_method ≠ "alphabetical") (res : List Chunk)
    (h : create_chunks html text source_id url chunk_method chunk_size ip ep cs env =
      .ok res) :
    (res.map Chunk.id).Nodup := by
  rw [create_chunks] at h
  split_ifs at h with h1 h2 h3 h4 h5
  · obtain rfl := Except.ok.inj h
    simp [chunk_single]
  · obtain rfl := Except.ok.inj h
    simp only [chunk_paginated, List.map_cons, List.nodup_cons]
    have hsubs := enum_filterMap_ids env.fetch (source_id ++ "_page")
      (fun p page_text =>
        (⟨source_id ++ "_page" ++ toString p.1, p.2, page_text,
          [("type", .s "paginated"), ("page", .n p.1)]⟩ : Chunk))
      (fun p t => rfl)
      (pythonTake (chunk_size - 1)
        ((paginated_page_urls (env.pagination_links html url) url).mergeSort pyStrLe)) 2
    refine ⟨fun hmem => ?_, hsubs.1⟩
    obtain ⟨j, hj, hsj⟩ := hsubs.2 _ hmem
    have hroot : source_id ++ "_page1" = (source_id ++ "_page") ++ toString 1 := by
      rw [String.append_assoc]; rfl
    rw [hroot] at hsj
    have := pre_toString_inj (source_id ++ "_page") hsj
    omega
  · obtain rfl := Except.ok.inj h
    simp only [chunk_recursive]
    rw [if_neg (by norm_num)]
    simp only [List.singleton_append, List.map_cons, List.nodup_cons]
    have hgo := chunk_recursive_go_ids source_id env.fetch
      (pythonTake (chunk_size - 1)
        (recursive_internal_links (env.links_in html cs url) url ip ep cs env.fnm)) 1
    refine ⟨fun hmem => ?_, hgo.1⟩
    obtain ⟨j, hj, hsj⟩ := hgo.2 _ hmem
    have hroot : source_id ++ "_root" = (source_id ++ "_") ++ "root" := by
      rw [String.append_assoc]; rfl
    rw [hroot] at hsj
    exact natToString_ne_root j (string_append_cancel_left hsj).symm
  · obtain rfl := Except.ok.inj h
    simp only [chunk_sitemap, List.enum]
    exact (enum_filterMap_ids env.fetch (source_id ++ "_")
      (fun p page_text =>
        (⟨source_id ++ "_" ++ toString p.1, p.2, page_text,
          [("type", .s "sitemap"), ("index", .n p.1)]⟩ : Chunk))
      (fun p t => rfl) _ 0).1
  · obtain rfl := Except.ok.inj h
    simp [chunk_single]

/-- C3 witness: the recursive strategy over two discoverable links — ids
`src_root`, `src_1`, `src_2` are pairwise distinct. -/
theorem C3_ids_nodup_amended_witness :
    (([⟨"src_root", "http://h/a/", "t", [("type", .s "recursive"), ("depth", .n 0)]⟩,
       ⟨"src_1", "http://h/b/x", "T", [("type", .s "recursive"), ("depth", .n 1)]⟩,
       ⟨"src_2", "http://h/a/y", "T", [("type", .s "recursive"), ("depth", .n 1)]⟩] :
        List Chunk).map Chunk.id).Nodup :=
  C3_ids_nodup_amended "h" "t" "src" "http://h/a/" "recursive" 5 none none
    (some ".main") recEnv (by decide) _ rfl

/-- C2 counterexample: the sitemap strategy has no single-chunk fallback — a
sitemap that yields no URLs gives an empty chunk list even though the fetched
text `"x"` is non-empty. -/
theorem C2_counterexample :
    create_chunks "h" "x" "src" "u" "sitemap" 5 none none none wEnv = .ok [] ∧
    ("x" : String) ≠ "" :=
  ⟨rfl, by decide⟩

/-- C2 (amended): for every strategy name except sitemap (including
unrecognized names) and non-empty text, whenever `create_chunks` returns a
value that value is a non-empty chunk sequence, and an unrecognized strategy
name yields the single-chunk result; the sitemap strategy can return an empty
sequence (see the counterexample), and the alphabetical strategy can instead
raise an IndexError when a boundary fires on a chunk holding no lettered
line. -/
theorem C2_nonempty_amended (html text source_id url chunk_method : String)
    (chunk_size : Int) (ip ep cs : Option String) (env : Env)
    (hm : chunk_method ≠ "sitemap") (htext : text ≠ "") (res : List Chunk)
    (h : create_chunks html text source_id url chunk_method chunk_size ip ep cs env =
      .ok res) :
    res ≠ [] ∧
    (chunk_method ∉ ["single", "paginated", "alphabetical", "recursive", "sitemap"] →
      res = chunk_single html text source_id url) := by
  rw [create_chunks] at h
  split_ifs at h with h1 h2 h3 h4
  · obtain rfl := Except.ok.inj h
    exact ⟨by simp [chunk_single], fun hni => absurd (by rw [h1]; simp) hni⟩
  · obtain rfl := Except.ok.inj h
    refine ⟨?_, fun hni => absurd (by rw [h2]; simp) hni⟩
    simp [chunk_paginated]
  · refine ⟨?_, fun hni => absurd (by rw [h3]; simp) hni⟩
    rw [chunk_alphabetical] at h
    cases hgo : alpha_go source_id url chunk_size (pySplit text '\n') [] [] [] 0 with
    | error e => rw [hgo] at h; cases h
    | ok l =>
        rw [hgo] at h
        cases l with
        | nil =>
            obtain rfl := Except.ok.inj h
            simp [chunk_single]
        | cons c l' =>
            obtain rfl := Except.ok.inj h
            simp
  · obtain rfl := Except.ok.inj h
    refine ⟨?_, fun hni => absurd (by rw [h4]; simp) hni⟩
    simp only [chunk_recursive]
    split <;> simp
  · obtain rfl := Except.ok.inj h
    exact ⟨by simp [chunk_single], fun _ => rfl⟩

/-- C2 witness: an unrecognized strategy name over non-empty text returns the
(non-empty) single-chunk result. -/
theorem C2_nonempty_amended_witness :
    chunk_single "h" "x" "src" "u" ≠ [] ∧
    ("bogus" ∉ ["single", "paginated", "alphabetical", "recursive", "sitemap"] →
      chunk_single "h" "x" "src" "u" = chunk_single "h" "x" "src" "u") :=
  C2_nonempty_amended "h" "x" "src" "u" "bogus" 3 none none none wEnv (by decide)
    (by decide) _ rfl

/-- Supporting fact for the C2 amendment: the alphabetical strategy raises —
the mid-loop `letters[0]` access fails when a chunk boundary fires while the
open chunk holds only lines that do not begin with a letter. -/
theorem alphabetical_raises_on_unlettered_chunk :
    create_chunks "h" "1x\nA" "src" "u" "alphabetical" 1 none none none wEnv =
      .error "IndexError: list index out of range" := rfl
